import Mathlib

/-!
# Clipfolio — verification of the cache-and-transcode core

A shallow embedding of the Clipfolio media core (Electron main process,
`src/main/main.ts`, plus the renderer `AsyncQueue`) together with proofs of
the specified properties: the size-targeted export bitrate search, the
single-flight artifact cache, the audio filter/mapping plan builder, the
cancellation classification, the audio extraction set validity protocol,
cache idempotence, the bounded task queue, the folder-watch debounce, and
the watched-folder allowlist.

JavaScript numbers are modelled as exact rationals (`ℚ`); `Math.floor` is
`Int.floor`; `Math.max` is `max`.  Stateful handlers are modelled as
explicit state-passing step functions; asynchronous settlement is modelled
by event traces processed by the single orchestration thread.

The file is organised as definitions first (the embedding), then theorems.
-/

namespace Clipfolio

/-! ## Definitions: size-targeted export (`export-video` handler)

The `export-video` handler, for `quality === 'compressed'` and video output,
computes (all in JS number arithmetic):

    targetBytes      = targetMB * 1024 * 1024
    targetBits       = Math.max(1, Math.floor(targetBytes * 0.92 * 8))
    videoBitrateKbps = Math.max(100, Math.floor(targetBits / duration / 1000) - 128)

then encodes; while the output file size exceeds `targetBytes` and fewer
than 2 retries have happened it lowers the bitrate to
`Math.max(100, Math.floor(videoBitrateKbps * 0.85))` and re-encodes; finally
it returns the output path unconditionally. -/

/-- `targetBits` of the `export-video` handler:
`Math.max(1, Math.floor(targetBytes * 0.92 * 8))` with
`targetBytes = targetMB * 1024 * 1024`. -/
def targetBits (targetMB : ℚ) : ℤ :=
  max 1 ⌊targetMB * 1024 * 1024 * (92/100) * 8⌋

/-- The first-attempt video bitrate computed by the `export-video` handler:
`Math.max(100, Math.floor(targetBits / duration / 1000) - audioBitrateKbps)`
with `audioBitrateKbps = 128`. -/
def initialBitrate (targetMB duration : ℚ) : ℤ :=
  max 100 (⌊(targetBits targetMB : ℚ) / duration / 1000⌋ - 128)

/-- Formula of the specification sentence, verbatim: the first attempt's
bitrate is claimed to equal `max(100, floor(T*1024*1024*0.92*8/D/1000) - 128)`
— a single floor of the full real-valued expression.  Kept distinct from
`initialBitrate` (which transcribes the code, flooring `targetBits` to an
integer before the division) so the two can be compared. -/
def specInitialBitrate (targetMB duration : ℚ) : ℤ :=
  max 100 (⌊targetMB * 1024 * 1024 * (92/100) * 8 / duration / 1000⌋ - 128)

/-- The bitrate reduction applied on each retry of the size loop:
`Math.max(100, Math.floor(videoBitrateKbps * 0.85))`. -/
def shrinkBitrate (b : ℤ) : ℤ :=
  max 100 ⌊(b : ℚ) * (85/100)⌋

/-- Outcome of one `encodeOnce` call, abstracted: the encode either runs to
completion producing an output file of some byte size, or is canceled.
The environment (ffmpeg) is abstracted as a function from the requested
video bitrate to the resulting file size. -/
inductive EncodeOutcome where
  | done (size : ℕ)
  | canceled
deriving DecidableEq, Repr

/-- Result of the `export-video` handler: success (the output path is
returned) or an explicit canceled outcome. -/
inductive ExportResult where
  | ok
  | canceled
deriving DecidableEq, Repr

/-- The size-budget convergence loop of the `export-video` handler, with the
encoder abstracted by `enc : ℤ → EncodeOutcome` (file size produced at a
given video bitrate, or cancellation).  Returns the export result together
with the list of video bitrates actually passed to `encodeOnce`, in order.
`attempts` counts completed retries; the loop guard is
`size > targetBytes && attempts < 2`. -/
def sizeLoop (enc : ℤ → EncodeOutcome) (targetBytes : ℚ) :
    ℕ → ℤ → ℕ → ExportResult × List ℤ
  | attempts, b, fuel =>
    match enc b with
    | .canceled => (.canceled, [b])
    | .done size =>
      match fuel with
      | 0 => (.ok, [b])
      | fuel + 1 =>
        if (size : ℚ) > targetBytes ∧ attempts < 2 then
          let r := sizeLoop enc targetBytes (attempts + 1) (shrinkBitrate b) fuel
          (r.1, b :: r.2)
        else
          (.ok, [b])

/-- The size-targeted branch of the `export-video` handler: compute the
initial bitrate from the target size and trim duration, then run the retry
loop (at most 2 retries, so fuel 2 suffices and is exact). -/
def exportSizeTargeted (enc : ℤ → EncodeOutcome) (targetMB duration : ℚ) :
    ExportResult × List ℤ :=
  sizeLoop enc (targetMB * 1024 * 1024) 0 (initialBitrate targetMB duration) 2

/-- Full characterisation of a size-targeted export run (with no encode
canceled): it succeeds regardless of the final file size, the first attempt
uses `initialBitrate`, a retry happens exactly when the previous output
exceeded the byte budget, each retry bitrate is `shrinkBitrate` of the
prior one, and at most 3 encodes occur in total. -/
def ExportAttemptSpec (enc : ℤ → EncodeOutcome) (targetMB duration : ℚ)
    (r : ExportResult × List ℤ) : Prop :=
  let tB := targetMB * 1024 * 1024
  let b0 := initialBitrate targetMB duration
  let b1 := shrinkBitrate b0
  let b2 := shrinkBitrate b1
  r.1 = .ok ∧
  ∃ s0, enc b0 = .done s0 ∧
    (((s0 : ℚ) ≤ tB ∧ r.2 = [b0]) ∨
     ((s0 : ℚ) > tB ∧ ∃ s1, enc b1 = .done s1 ∧
       (((s1 : ℚ) ≤ tB ∧ r.2 = [b0, b1]) ∨
        ((s1 : ℚ) > tB ∧ ∃ s2, enc b2 = .done s2 ∧ r.2 = [b0, b1, b2]))))

/-! ## Definitions: audio filter/mapping plan (`buildFilterAndMaps`)

`buildFilterAndMaps` constructs the ffmpeg `-filter_complex` parts and the
stream `-map` options for an export.  The generated strings are represented
structurally, each constructor corresponding to one string shape produced
by the code. -/

/-- An amix input label: `[0:a:i]` (the raw stream) or `[a{i}]` (the output
of that stream's volume filter). -/
inductive ALabel where
  | direct (i : ℕ)
  | filtered (i : ℕ)
deriving DecidableEq, Repr

/-- One entry of `filterParts`: `volume i v` is the string
`[0:a:i]volume=v[a{i}]`; `amix labels n d` is the string
`{labels}amix=inputs={n}:duration={d}[aout]`. -/
inductive FilterPart where
  | volume (i : ℕ) (vol : ℚ)
  | amix (inputs : List ALabel) (n : ℕ) (durationMode : String)
deriving DecidableEq, Repr

/-- One entry of `mapOptions`: `video` is `-map 0:v:0`; `noVideo` is `-vn`;
`audioDirect i` is `-map 0:a:i`; `audioFiltered i` is `-map [a{i}]`;
`aout` is `-map [aout]`. -/
inductive MapOpt where
  | video
  | noVideo
  | audioDirect (i : ℕ)
  | audioFiltered (i : ℕ)
  | aout
deriving DecidableEq, Repr

/-- The export's audio mixing mode. -/
inductive AudioMode where
  | combine
  | separate
deriving DecidableEq, Repr

/-- The export's output kind (`'video' | 'mp3'`). -/
inductive OutType where
  | video
  | mp3
deriving DecidableEq, Repr

/-- `Math.abs` on an exact rational. -/
def jsAbs (q : ℚ) : ℚ := if q < 0 then -q else q

/-- `getVolumeForIndex` of the `export-video` handler: look up the track
config whose `index` equals `idx`; default volume is `1.0`. -/
def getVolumeForIndex (audioTracks : List (ℕ × ℚ)) (idx : ℕ) : ℚ :=
  match audioTracks.find? (fun t => t.1 = idx) with
  | some t => t.2
  | none => 1

/-- `buildFilterAndMaps` of the `export-video` handler.  `combine` is forced
for mp3 output; video output always maps `0:v:0` first and mp3 output drops
video (`-vn`); with no audio streams no audio mapping is added; in combine
mode each non-unit-volume track (`Math.abs(vol - 1.0) > 1e-6`) gets a
volume filter, the labels are merged by one `amix` with
`duration=longest` — except when the single label `[0:a:0]` remains, which
is mapped directly; in separate mode each track is mapped on its own,
filtered only if its volume is non-unit. -/
def buildFilterAndMaps (numAudioStreams : ℕ) (audioTracks : List (ℕ × ℚ))
    (mode : AudioMode) (type : OutType) : List FilterPart × List MapOpt :=
  let useCombine : Bool := match type with
    | .mp3 => true
    | .video => match mode with
      | .combine => true
      | .separate => false
  let mapOptions0 : List MapOpt := match type with
    | .video => [.video]
    | .mp3 => [.noVideo]
  if numAudioStreams ≤ 0 then ([], mapOptions0)
  else if useCombine then
    let acc := (List.range numAudioStreams).foldl (fun acc i =>
      let vol := getVolumeForIndex audioTracks i
      if jsAbs (vol - 1) > 1/1000000 then
        (acc.1 ++ [FilterPart.volume i vol], acc.2 ++ [ALabel.filtered i])
      else
        (acc.1, acc.2 ++ [ALabel.direct i])) (([], []) : List FilterPart × List ALabel)
    if acc.2.length = 1 ∧ acc.2.head? = some (ALabel.direct 0) then
      (acc.1, mapOptions0 ++ [MapOpt.audioDirect 0])
    else
      (acc.1 ++ [FilterPart.amix acc.2 acc.2.length "longest"], mapOptions0 ++ [MapOpt.aout])
  else
    let acc := (List.range numAudioStreams).foldl (fun acc i =>
      let vol := getVolumeForIndex audioTracks i
      if jsAbs (vol - 1) > 1/1000000 then
        (acc.1 ++ [FilterPart.volume i vol], acc.2 ++ [MapOpt.audioFiltered i])
      else
        (acc.1, acc.2 ++ [MapOpt.audioDirect i])) (([], []) : List FilterPart × List MapOpt)
    (acc.1, mapOptions0 ++ acc.2)

/-! ## Definitions: export cancellation (`cancel-export`, `encodeOnce` error handler)

`cancel-export` marks the caller's session as canceled (`canceledExports`)
before killing the live ffmpeg process; the `encodeOnce` error handler
classifies a process termination as a cancellation when the session flag is
set or the error message matches `/kill|SIGKILL|terminated|canceled/i`, and
resolves `{status: 'canceled'}` in that case instead of rejecting. -/

/-- ASCII lower-casing of one character (the effect of a case-insensitive
regex match). -/
def lowerChar (c : Char) : Char :=
  if 65 ≤ c.toNat ∧ c.toNat ≤ 90 then Char.ofNat (c.toNat + 32) else c

/-- Whether the second character list occurs at the start of the first. -/
def startsWithL : List Char → List Char → Bool
  | _, [] => true
  | [], _ :: _ => false
  | h :: hs, p :: ps => h == p && startsWithL hs ps

/-- Whether the second character list occurs anywhere inside the first. -/
def containsL : List Char → List Char → Bool
  | [], pat => startsWithL [] pat
  | h :: hs, pat => startsWithL (h :: hs) pat || containsL hs pat

/-- The regex test `/kill|SIGKILL|terminated|canceled/i.test(msg)` of the
`encodeOnce` error handler: case-insensitive search for any of the four
alternatives (`SIGKILL` lower-cases to `sigkill`). -/
def killMsgTest (msg : String) : Bool :=
  let m := msg.data.map lowerChar
  containsL m "kill".data || containsL m "sigkill".data ||
    containsL m "terminated".data || containsL m "canceled".data

/-- Per-sender cancellation state: whether `activeExports` holds a live
command for the sender and whether the sender is in `canceledExports`. -/
structure SessionSt where
  active : Bool
  canceledFlag : Bool
deriving DecidableEq, Repr

/-- How the `encodeOnce` promise settles on a process termination. -/
inductive ErrOutcome where
  | canceled
  | failed
deriving DecidableEq, Repr

/-- The `cancel-export` handler: if a live command exists for the sender,
add the sender to `canceledExports` (before killing the process) and drop
the command from `activeExports`; otherwise do nothing. -/
def cancelExport (s : SessionSt) : SessionSt :=
  if s.active then { active := false, canceledFlag := true } else s

/-- The `encodeOnce` `.on('error')` handler: compute
`wasCanceled = canceledExports.has(senderId) || /kill|SIGKILL|terminated|canceled/i.test(msg)`,
drop the active command, and either resolve `{status: 'canceled'}`
(consuming the flag) or reject with the error. -/
def onEncodeError (s : SessionSt) (msg : String) : ErrOutcome × SessionSt :=
  let wasCanceled := s.canceledFlag || killMsgTest msg
  if wasCanceled then
    (.canceled, { active := false, canceledFlag := false })
  else
    (.failed, { s with active := false })

/-! ## Definitions: single-flight artifact cache
(`get-cached-metadata` / `get-cached-extracted-audio` task maps)

Both handlers keep a module-level `Map` from the artifact's cache path to
the pending generation promise: a request first consults the resolved
cache, then joins any pending task for the key, and otherwise registers a
fresh task; the task's `.finally` removes the registration whether the
generation succeeded or failed, and a failure stores nothing. -/

/-- What a cache request observes: an already-resolved artifact, an
in-flight generation it joins, or a fresh generation it starts. -/
inductive ReqOutcome where
  | cachedHit (v : ℕ)
  | joined (t : ℕ)
  | started (t : ℕ)
deriving DecidableEq, Repr

/-- The handler-level cache state: the in-flight task map (`metaTasks` /
`audioExtractTasks`), the resolved artifacts (memory cache / files on
disk), a counter for fresh task handles, and the number of generations
started so far. -/
structure FlightSt where
  inflight : String → Option ℕ
  cached : String → Option ℕ
  nextId : ℕ
  gens : ℕ

/-- One cache request for key `k` (the fingerprint-derived cache path).
A `forceRefresh` request (`get-cached-extracted-audio` only) first runs
`cleanupCache()` — deleting the key's cached artifacts — and
`audioExtractTasks.delete(cacheDir)` — dropping the in-flight registration
even while a generation is pending.  Then, as in `get-cached-metadata`:
return the resolved artifact if present; otherwise
`let p = tasks.get(k); if (!p) { p = generate...; tasks.set(k, p) }`.
(`get-cached-extracted-audio` performs its disk check inside the generation
instead, but keys and joins `audioExtractTasks` in the same way.) -/
def requestArtifact (s : FlightSt) (k : String) (forceRefresh : Bool) :
    ReqOutcome × FlightSt :=
  let s1 := if forceRefresh then
      { s with
        cached := fun q => if q = k then none else s.cached q,
        inflight := fun q => if q = k then none else s.inflight q }
    else s
  match s1.cached k with
  | some v => (.cachedHit v, s1)
  | none =>
    match s1.inflight k with
    | some t => (.joined t, s1)
    | none =>
      (.started s1.nextId,
       { s1 with
         inflight := fun q => if q = k then some s1.nextId else s1.inflight q,
         nextId := s1.nextId + 1,
         gens := s1.gens + 1 })

/-- Settlement of the generation for key `k`: the `.finally` handler deletes
the in-flight registration in every outcome; a successful generation
(`result = some v`) stores the artifact, a failed one (`result = none`)
stores nothing. -/
def settleArtifact (s : FlightSt) (k : String) (result : Option ℕ) : FlightSt :=
  { s with
    inflight := fun q => if q = k then none else s.inflight q,
    cached := fun q => if q = k then
        (match result with | some v => some v | none => s.cached q)
      else s.cached q }

/-! ## Definitions: cache idempotence (`get-cached-thumbnail`) -/

/-- The on-disk artifact state seen by `get-cached-thumbnail`, plus a count
of ffmpeg generation calls. -/
structure DiskSt where
  onDisk : String → Bool
  gens : ℕ

/-- The cache path computed by `computeCachedThumbPath`: base name plus a
truncated `sha1(path ‖ mtime ‖ size)`.  The hash is modelled by the
injective encoding of its three inputs. -/
def computeCachedThumbPath (videoPath : String) (mtime size : ℕ) : String :=
  videoPath ++ "|" ++ toString mtime ++ "|" ++ toString size ++ ".jpg"

/-- The `get-cached-thumbnail` handler: if the fingerprinted artifact exists
on disk, return it with no generation; otherwise invoke ffmpeg
(`genOk` says whether the screenshot succeeds) and resolve with the
artifact path, which then exists on disk. -/
def getCachedThumbnail (d : DiskSt) (videoPath : String) (mtime size : ℕ)
    (genOk : Bool) : Option String × DiskSt :=
  let outPath := computeCachedThumbPath videoPath mtime size
  if d.onDisk outPath then (some outPath, d)
  else if genOk then
    (some outPath,
     { onDisk := fun q => if q = outPath then true else d.onDisk q, gens := d.gens + 1 })
  else (none, { d with gens := d.gens + 1 })

/-! ## Definitions: watcher tables and the trusted-location allowlist -/

/-- JavaScript `String.prototype.startsWith`. -/
def jsStartsWith (s pat : String) : Bool := startsWithL s.data pat.data

/-- The two module-level watcher tables: `folderWatchers` (path → live
`FSWatcher`, modelled by the key set) and `watchedBaseFolders`. -/
structure WatchGlobalSt where
  folderWatchers : List String
  watchedBaseFolders : List String
deriving DecidableEq, Repr

/-- The `watch-folder` handler's table updates: a no-op when already
watching; otherwise the path is recorded in `watchedBaseFolders` and a
watcher is registered in `folderWatchers`. -/
def watchFolder (s : WatchGlobalSt) (p : String) : WatchGlobalSt :=
  if p ∈ s.folderWatchers then s
  else
    { folderWatchers := s.folderWatchers ++ [p],
      watchedBaseFolders :=
        if p ∈ s.watchedBaseFolders then s.watchedBaseFolders
        else s.watchedBaseFolders ++ [p] }

/-- The `unwatch-folder` handler: close and remove the `folderWatchers`
entry; `watchedBaseFolders` is not touched. -/
def unwatchFolder (s : WatchGlobalSt) (p : String) : WatchGlobalSt :=
  { s with folderWatchers := s.folderWatchers.erase p }

/-- The `protocol.handle('local')` trusted-location check: the normalized
path must start with the temp directory or with some entry of
`watchedBaseFolders`. -/
def localProtocolAllowed (s : WatchGlobalSt) (tmpDir p : String) : Bool :=
  jsStartsWith p tmpDir || s.watchedBaseFolders.any (fun w => jsStartsWith p w)

/-- The `read-file-buffer` / `read-file-as-data-url` trusted-location
check: same allowlist as the `local` protocol handler. -/
def readFileAllowed (s : WatchGlobalSt) (tmpDir p : String) : Bool :=
  jsStartsWith p tmpDir || s.watchedBaseFolders.any (fun w => jsStartsWith p w)

/-! ## Definitions: bounded task queue (`AsyncQueue`, renderer)

`new AsyncQueue(concurrency)` coerces the configured value with
`Math.max(1, Math.floor(concurrency))`.  `add(task)` runs the task at once
when `running < concurrency`, else pushes it to the back of `queue`; a
finished task (success or failure) settles only its own promise, decrements
`running` and calls `next()`, which starts the task shifted from the front
of `queue` when `running < concurrency`. -/

/-- The coerced concurrency `Math.max(1, Math.floor(concurrency))`. -/
def concurrencyOf (c : ℚ) : ℕ := (max 1 ⌊c⌋).toNat

/-- The queue's observable state: ids of running tasks, the waiting queue
(front = oldest), the log of task starts in order, each task's settled
outcome, and the id for the next submission.  Ids are assigned in
submission order. -/
structure QueueSt where
  running : List ℕ
  waiting : List ℕ
  startedLog : List ℕ
  outcomes : ℕ → Option Bool
  nextId : ℕ

/-- Queue events: a task submission (`add`), or the termination of running
task `i` with success flag `ok`. -/
inductive QEv where
  | add
  | finish (i : ℕ) (ok : Bool)

/-- The queue's initial state. -/
def qInit : QueueSt := ⟨[], [], [], fun _ => none, 0⟩

/-- One step of the `AsyncQueue`: `add` either starts the task immediately
(`running < concurrency`) or enqueues it; `finish i ok` records the task's
own outcome, removes it from `running`, and — as `next()` does — starts the
task at the front of the waiting queue if one exists and
`running < concurrency` holds after the decrement. -/
def qStep (N : ℕ) (s : QueueSt) : QEv → QueueSt
  | .add =>
    if s.running.length < N then
      { s with running := s.nextId :: s.running,
               startedLog := s.startedLog ++ [s.nextId],
               nextId := s.nextId + 1 }
    else
      { s with waiting := s.waiting ++ [s.nextId], nextId := s.nextId + 1 }
  | .finish i ok =>
    if i ∈ s.running then
      let s' := { s with running := s.running.erase i,
                         outcomes := fun j => if j = i then some ok else s.outcomes j }
      match s'.waiting with
      | [] => s'
      | h :: t =>
        if s'.running.length < N then
          { s' with running := h :: s'.running, waiting := t,
                    startedLog := s'.startedLog ++ [h] }
        else s'
    else s

/-- Run a queue event trace from the initial state. -/
def qRun (N : ℕ) (evs : List QEv) : QueueSt := evs.foldl (qStep N) qInit

/-- Queue invariant: at most `N` tasks run concurrently, and the waiting
queue lists tasks in strictly increasing submission order, all already
submitted. -/
def QInv (N : ℕ) (s : QueueSt) : Prop :=
  s.running.length ≤ N ∧ s.waiting.Chain' (· < ·) ∧ (∀ i ∈ s.waiting, i < s.nextId)

/-! ## Definitions: audio extraction set (`get-cached-extracted-audio` generation)

The generation extracts each of the `n` detected audio streams with its own
ffmpeg command.  Shared counters `completed` and `hasError` aggregate the
per-track terminal events: an `end` event increments `completed` and, once
all `n` tracks completed without error, validates every output file
(exists, size > 0) and resolves the set or cleans the cache directory and
rejects; the first `error` event (including the error produced when the
fixed 30-second per-track timeout force-kills a track) cleans the cache
directory and rejects.  A promise settles at most once. -/

/-- The fixed per-track extraction timeout (`setTimeout(..., 30000)`). -/
def perTrackTimeoutMs : ℕ := 30000

/-- A track's terminal ffmpeg event: `end` (`fin`) or `error` (`err`, which
also covers the 30-second-timeout force-kill). -/
inductive TrackEv where
  | fin
  | err
deriving DecidableEq, Repr

/-- The aggregate state of one extraction request: completed-track count,
error flag, how the request's promise settled (`some true` = resolved with
the outputs, `some false` = rejected), and whether the cache directory was
cleaned. -/
structure ExtractSt where
  completed : ℕ
  hasError : Bool
  settled : Option Bool
  cleaned : Bool
deriving DecidableEq, Repr

/-- The post-extraction validity check for one output file:
`fs.existsSync(f) && fs.statSync(f).size > 0` (`sizes i = none` models a
missing file). -/
def trackSizeOk (sizes : ℕ → Option ℕ) (i : ℕ) : Bool :=
  match sizes i with
  | some s => decide (0 < s)
  | none => false

/-- `outputs.every(...)`: all `n` expected output files exist with non-zero
size. -/
def allTracksValid (n : ℕ) (sizes : ℕ → Option ℕ) : Bool :=
  (List.range n).all (trackSizeOk sizes)

/-- One terminal track event processed by the extraction handlers (the
`.on('end')` and `.on('error')` callbacks). -/
def extractStep (n : ℕ) (sizes : ℕ → Option ℕ) (s : ExtractSt) : TrackEv → ExtractSt
  | .fin =>
    if s.completed + 1 = n ∧ s.hasError = false then
      if allTracksValid n sizes then
        { s with completed := s.completed + 1,
                 settled := if s.settled = none then some true else s.settled }
      else
        { s with completed := s.completed + 1, cleaned := true,
                 settled := if s.settled = none then some false else s.settled }
    else { s with completed := s.completed + 1 }
  | .err =>
    if s.hasError = false then
      { s with hasError := true, cleaned := true,
               settled := if s.settled = none then some false else s.settled }
    else s

/-- Process the terminal events of all tracks, in arrival order, from the
initial state. -/
def extractRun (n : ℕ) (sizes : ℕ → Option ℕ) (evs : List TrackEv) : ExtractSt :=
  evs.foldl (extractStep n sizes) ⟨0, false, none, false⟩

/-! ## Definitions: folder-watch debounce (`watch-folder` handler)

Every raw notification for a watched video path clears the path's previous
debounce timer and schedules a new one 500 ms out; only a timer that is not
replaced before its deadline fires.  The timer callback checks the
filesystem and the known-file set and emits at most one `file-added` or
`file-removed` event. -/

/-- A logical watcher event pushed to the renderer. -/
inductive FileEv where
  | added
  | removed
deriving DecidableEq, Repr

/-- Which of a burst's notification times end up firing: a timer set at
time `t` (deadline `t + 500`) is cleared by any later notification arriving
strictly before the deadline, so `t` survives when no other notification
lies in `(t, t + 500)`. -/
def survivors (ts : List ℕ) : List ℕ :=
  ts.filter (fun t => ts.all (fun u => u ≤ t || t + 500 ≤ u))

/-- The per-path watcher state: membership in the known-file set
(`existingFiles`) and the events emitted so far. -/
structure WatchPathSt where
  known : Bool
  emitted : List FileEv
deriving DecidableEq, Repr

/-- The debounce-timer callback: if the path exists and was not tracked,
emit `file-added` and add it to the known set only when its size is
positive; if it no longer exists but was tracked, remove it and emit
`file-removed`; otherwise do nothing. -/
def fireStep (fsEx : Bool) (size : ℕ) (s : WatchPathSt) : WatchPathSt :=
  if fsEx = true ∧ s.known = false then
    if 0 < size then { known := true, emitted := s.emitted ++ [FileEv.added] }
    else s
  else if fsEx = false ∧ s.known = true then
    { known := false, emitted := s.emitted ++ [FileEv.removed] }
  else s

/-- Process one notification burst: run the timer callback once per
surviving timer, with the file's state (`fsEx`, `size`) as observed when
the timers fire. -/
def processBurst (ts : List ℕ) (fsEx : Bool) (size : ℕ) (s : WatchPathSt) : WatchPathSt :=
  (survivors ts).foldl (fun st _ => fireStep fsEx size st) s

/-! ## Definitions: unwatching a root (`unwatch-folder` and pending timers)

`unwatch-folder` calls `watcher.close()` (no further raw notifications) and
deletes the `folderWatchers` entry.  The known-file set and the
`debounceTimers` map live in the `watch-folder` closure; `unwatch-folder`
never calls `clearTimeout`, so a timer scheduled before the stop still
fires 500 ms after its last notification and runs the usual callback. -/

/-- Events affecting one watched root (for a single path): a raw
notification at time `t`, the `unwatch-folder` call, and the firing of the
debounce timer whose deadline is `t`. -/
inductive WatchEv where
  | notify (t : ℕ)
  | unwatch
  | fire (t : ℕ)
deriving DecidableEq, Repr

/-- Per-root watcher state: whether the `FSWatcher` is open, the pending
debounce deadline for the path (if any), the path's membership in the
known-file set, and the events emitted so far. -/
structure RootSt where
  watching : Bool
  timer : Option ℕ
  known : Bool
  emitted : List FileEv
deriving DecidableEq, Repr

/-- One event against a watched root: a notification (delivered only while
the watcher is open) replaces the pending timer with deadline `t + 500`;
`unwatch-folder` closes the watcher and nothing else; a timer whose
deadline is still current fires the debounce callback (same logic as
`fireStep`), and a superseded deadline does nothing. -/
def rootStep (fsEx : Bool) (size : ℕ) (s : RootSt) : WatchEv → RootSt
  | .notify t =>
    if s.watching then { s with timer := some (t + 500) } else s
  | .unwatch => { s with watching := false }
  | .fire t =>
    if s.timer = some t then
      let s1 : RootSt := { s with timer := none }
      if fsEx = true ∧ s1.known = false then
        if 0 < size then
          { s1 with known := true, emitted := s1.emitted ++ [FileEv.added] }
        else s1
      else if fsEx = false ∧ s1.known = true then
        { s1 with known := false, emitted := s1.emitted ++ [FileEv.removed] }
      else s1
    else s

/-- Run a sequence of root events. -/
def rootRun (fsEx : Bool) (size : ℕ) (s : RootSt) (evs : List WatchEv) : RootSt :=
  evs.foldl (rootStep fsEx size) s

/-! ## Definitions: cache idempotence for the extracted-audio and metadata kinds

`get-cached-extracted-audio` (with `forceRefresh = false` and no pending
task) always begins its generation task with `ffmpeg.ffprobe` on the
source; only after the probe does `checkExisting` return the on-disk set
(no re-extraction) or, failing that, clean the directory and extract all
tracks.  `get-cached-metadata` consults `metadataMemoryCache`, then the
disk cache file, and only probes when both miss. -/

/-- The extracted-audio cache state for one (unchanged) source: the size of
each `audio_track_i.wav` on disk (`none` = missing), and counts of engine
probe calls and of extraction generations. -/
structure AudioCacheSt where
  files : ℕ → Option ℕ
  probes : ℕ
  extractions : ℕ

/-- One `get-cached-extracted-audio` resolution (no pending task, no force
refresh) for a source with `n` audio streams: probe the source (always);
resolve `[]` when `n = 0`; resolve the existing on-disk set (track indices
`0..n-1`) when every expected file exists non-empty; otherwise clean the
cache directory and extract all `n` tracks (one generation, producing
non-empty outputs). -/
def getCachedExtractedAudio (st : AudioCacheSt) (n : ℕ) : List ℕ × AudioCacheSt :=
  let st1 : AudioCacheSt := { st with probes := st.probes + 1 }
  if n = 0 then ([], st1)
  else if allTracksValid n st1.files then
    (List.range n, st1)
  else
    (List.range n,
     { st1 with files := fun i => if i < n then some 1 else none,
                extractions := st1.extractions + 1 })

/-- The metadata cache state for one (unchanged) source: the in-memory
`metadataMemoryCache` entry, the on-disk cache file, and the number of
engine probe calls.  Metadata values are abstracted as naturals. -/
structure MetaCacheSt where
  memCache : Option ℕ
  diskCache : Option ℕ
  probes : ℕ
deriving DecidableEq, Repr

/-- One `get-cached-metadata` resolution (no pending task): serve from the
in-memory cache, else from the disk cache (memoizing), else probe the
source and persist the result in both caches. -/
def getCachedMetadata (probeVal : ℕ) (st : MetaCacheSt) : ℕ × MetaCacheSt :=
  match st.memCache with
  | some m => (m, st)
  | none =>
    match st.diskCache with
    | some m => (m, { st with memCache := some m })
    | none =>
      (probeVal,
       { memCache := some probeVal, diskCache := some probeVal,
         probes := st.probes + 1 })

/-! ## Theorems -/

/-- Unfolding lemma: one iteration of the size loop when the encode at `b`
completes with file size `s` and fuel remains. -/
theorem sizeLoop_done_step (enc : ℤ → EncodeOutcome) (tB : ℚ) (attempts : ℕ) (b : ℤ)
    (fuel s : ℕ) (h : enc b = .done s) :
    sizeLoop enc tB attempts b (fuel + 1) =
      if (s : ℚ) > tB ∧ attempts < 2 then
        ((sizeLoop enc tB (attempts + 1) (shrinkBitrate b) fuel).1,
         b :: (sizeLoop enc tB (attempts + 1) (shrinkBitrate b) fuel).2)
      else (.ok, [b]) := by
  rw [sizeLoop, h]

/-- Unfolding lemma: the size loop stops, succeeding, as soon as the encode
at `b` completes within the byte budget. -/
theorem sizeLoop_done_halt (enc : ℤ → EncodeOutcome) (tB : ℚ) (attempts : ℕ) (b : ℤ)
    (fuel s : ℕ) (h : enc b = .done s) (hs : ¬ (s : ℚ) > tB) :
    sizeLoop enc tB attempts b fuel = (.ok, [b]) := by
  cases fuel with
  | zero => rw [sizeLoop, h]
  | succ fuel => rw [sizeLoop_done_step enc tB attempts b fuel s h, if_neg (by tauto)]

/-- C1 (amended): for every size-targeted export with trim duration `D > 0`
in which no encode is canceled, the first encode attempt uses video bitrate
`initialBitrate T D = max(100, floor(max(1, floor(T*1024*1024*0.92*8)) / D / 1000) - 128)`
kbps; if the resulting file exceeds `T*1024*1024` bytes, at most 2 further
attempts occur, each with bitrate `max(100, floor(0.85 * prior))`, a retry
occurring exactly when the previous output was oversize; and after the
attempts are exhausted the export resolves successfully regardless of the
final file size. -/
theorem export_bitrate_convergence (enc : ℤ → EncodeOutcome) (targetMB duration : ℚ)
    (_hD : 0 < duration) (hnc : ∀ b, enc b ≠ .canceled) :
    ExportAttemptSpec enc targetMB duration (exportSizeTargeted enc targetMB duration) := by
  unfold ExportAttemptSpec exportSizeTargeted
  set tB := targetMB * 1024 * 1024 with htB
  set b0 := initialBitrate targetMB duration with hb0
  cases h0 : enc b0 with
  | canceled => exact absurd h0 (hnc b0)
  | done s0 =>
    by_cases hc0 : (s0 : ℚ) > tB
    · rw [show (2 : ℕ) = 1 + 1 from rfl, sizeLoop_done_step enc tB 0 b0 1 s0 h0,
        if_pos ⟨hc0, by norm_num⟩]
      cases h1 : enc (shrinkBitrate b0) with
      | canceled => exact absurd h1 (hnc _)
      | done s1 =>
        by_cases hc1 : (s1 : ℚ) > tB
        · rw [show (1 : ℕ) = 0 + 1 from rfl, sizeLoop_done_step enc tB 1 _ 0 s1 h1,
            if_pos ⟨hc1, by norm_num⟩]
          cases h2 : enc (shrinkBitrate (shrinkBitrate b0)) with
          | canceled => exact absurd h2 (hnc _)
          | done s2 =>
            rw [sizeLoop, h2]
            exact ⟨rfl, s0, h0, Or.inr ⟨hc0, s1, h1, Or.inr ⟨hc1, s2, h2, rfl⟩⟩⟩
        · rw [sizeLoop_done_halt enc tB 1 _ 1 s1 h1 hc1]
          exact ⟨rfl, s0, h0, Or.inr ⟨hc0, s1, h1, Or.inl ⟨not_lt.mp hc1, rfl⟩⟩⟩
    · rw [sizeLoop_done_halt enc tB 0 b0 2 s0 h0 hc0]
      exact ⟨rfl, s0, h0, Or.inl ⟨not_lt.mp hc0, rfl⟩⟩

/-- Witness for `export_bitrate_convergence` at a concrete input: target
10 MB, duration 5 s, an encoder that always produces a 1-byte file. -/
theorem export_bitrate_convergence_witness :
    (0 : ℚ) < 5 ∧ (∀ b : ℤ, (fun _ => EncodeOutcome.done 1) b ≠ .canceled) ∧
    ExportAttemptSpec (fun _ => .done 1) 10 5
      (exportSizeTargeted (fun _ => .done 1) 10 5) :=
  ⟨by norm_num, fun b => by simp,
   export_bitrate_convergence (fun _ => .done 1) 10 5 (by norm_num) (fun b => by simp)⟩

/-- C1, counterexample to the claim as stated: with target `T = 1` MB and trim
duration `D = 385875959/11450000 ≈ 33.7` seconds (no encode canceled;
encoder always produces a 0-byte file, so exactly one attempt runs), the
code's first-attempt bitrate is 100 kbps, while the claimed formula
`max(100, floor(T*1024*1024*0.92*8/D/1000) - 128)` gives 101 kbps: the code
floors `T*1024*1024*0.92*8` to an integer before dividing by the duration,
which the claimed single-floor formula does not. -/
theorem export_first_bitrate_counterexample :
    (exportSizeTargeted (fun _ => .done 0) 1 (385875959/11450000)).2.head? =
        some (initialBitrate 1 (385875959/11450000)) ∧
    initialBitrate 1 (385875959/11450000) = 100 ∧
    specInitialBitrate 1 (385875959/11450000) = 101 := by
  refine ⟨?_, ?_, ?_⟩
  · rw [exportSizeTargeted,
      sizeLoop_done_halt (fun _ => .done 0) _ 0 _ 2 0 rfl (by norm_num)]
    rfl
  · unfold initialBitrate targetBits
    norm_num [Int.floor_eq_iff]
  · unfold specInitialBitrate
    norm_num [Int.floor_eq_iff]

/-- C3: for a source with 3 audio streams and per-track volumes
`[1.0, 1.0, 0.5]`, in `combine` mode the plan routes only the third stream
through a volume filter and merges all three labels through one amix with
`inputs=3` and `duration=longest` into a single mapped output stream; in
`separate` mode the plan maps three independent output streams, filtering
only the third.  With exactly one unit-volume audio stream the plan maps
`0:a:0` directly with no filter and no amix; with zero audio streams no
audio mapping is added at all. -/
theorem audio_mixing_plan :
    buildFilterAndMaps 3 [(0, 1), (1, 1), (2, 1/2)] .combine .video =
      ([.volume 2 (1/2), .amix [.direct 0, .direct 1, .filtered 2] 3 "longest"],
       [.video, .aout]) ∧
    buildFilterAndMaps 3 [(0, 1), (1, 1), (2, 1/2)] .separate .video =
      ([.volume 2 (1/2)],
       [.video, .audioDirect 0, .audioDirect 1, .audioFiltered 2]) ∧
    buildFilterAndMaps 1 [(0, 1)] .combine .video = ([], [.video, .audioDirect 0]) ∧
    buildFilterAndMaps 0 [] .combine .video = ([], [.video]) ∧
    buildFilterAndMaps 0 [] .separate .video = ([], [.video]) := by
  refine ⟨?_, ?_, ?_, ?_, ?_⟩ <;>
    norm_num [buildFilterAndMaps, getVolumeForIndex, jsAbs, List.range_succ, List.find?]

/-- C4: canceling an export with a live process marks the session canceled
before the kill, so the subsequent process termination resolves as an
explicit canceled outcome (never a rejection) for any error message; in
general a termination is classified as a cancellation exactly when the
session's flag is set or the message matches the kill/termination patterns,
and any other termination is surfaced as a failure. -/
theorem cancellation_not_failure (s : SessionSt) (msg : String) :
    (s.active = true → (onEncodeError (cancelExport s) msg).1 = .canceled) ∧
    ((onEncodeError s msg).1 = .canceled ↔
      (s.canceledFlag = true ∨ killMsgTest msg = true)) ∧
    ((onEncodeError s msg).1 ≠ .canceled → (onEncodeError s msg).1 = .failed) := by
  refine ⟨?_, ?_, ?_⟩
  · intro ha
    simp [cancelExport, ha, onEncodeError]
  · unfold onEncodeError
    cases hf : s.canceledFlag <;> cases hk : killMsgTest msg <;> simp [hf, hk]
  · unfold onEncodeError
    cases hf : s.canceledFlag <;> cases hk : killMsgTest msg <;> simp [hf, hk]

/-- Witness for `cancellation_not_failure`: a session with a live export and
no flag set; canceling then receiving the ffmpeg kill error resolves as
canceled, and a plain error on an uncanceled session is a failure. -/
theorem cancellation_not_failure_witness :
    (SessionSt.mk true false).active = true ∧
    (onEncodeError (cancelExport ⟨true, false⟩)
      "ffmpeg was killed with signal SIGKILL").1 = .canceled ∧
    ((onEncodeError ⟨true, false⟩ "ffmpeg exited with code 1").1 = .canceled ↔
      ((SessionSt.mk true false).canceledFlag = true ∨
        killMsgTest "ffmpeg exited with code 1" = true)) :=
  ⟨rfl,
   (cancellation_not_failure ⟨true, false⟩ "ffmpeg was killed with signal SIGKILL").1 rfl,
   (cancellation_not_failure ⟨true, false⟩ "ffmpeg exited with code 1").2.1⟩

/-- C2 (amended): for every artifact key, a request without forceRefresh
that finds a generation pending joins it without starting a second
generation or changing any state, and one that finds nothing starts
exactly one generation and registers it; a forceRefresh request clears the
key's cached artifacts and in-flight registration and starts a fresh
generation even while one is pending; settlement removes the in-flight
registration whether the generation succeeded or failed; a failed
generation caches nothing; and a request after a failed settlement starts
a fresh generation. -/
theorem single_flight_per_key (s : FlightSt) (k : String) :
    (∀ t, s.cached k = none → s.inflight k = some t →
      requestArtifact s k false = (.joined t, s)) ∧
    (s.cached k = none → s.inflight k = none →
      (requestArtifact s k false).1 = .started s.nextId ∧
      (requestArtifact s k false).2.gens = s.gens + 1 ∧
      (requestArtifact s k false).2.inflight k = some s.nextId) ∧
    ((requestArtifact s k true).1 = .started s.nextId ∧
     (requestArtifact s k true).2.gens = s.gens + 1 ∧
     (requestArtifact s k true).2.inflight k = some s.nextId) ∧
    (∀ result, (settleArtifact s k result).inflight k = none) ∧
    ((settleArtifact s k none).cached = s.cached) ∧
    (s.cached k = none →
      (requestArtifact (settleArtifact s k none) k false).1 =
        .started (settleArtifact s k none).nextId) := by
  refine ⟨?_, ?_, ?_, ?_, ?_, ?_⟩
  · intro t hc hi
    simp [requestArtifact, hc, hi]
  · intro hc hi
    simp [requestArtifact, hc, hi]
  · simp [requestArtifact]
  · intro result
    simp [settleArtifact]
  · funext q
    by_cases hq : q = k <;> simp [settleArtifact, hq]
  · intro hc
    simp [requestArtifact, settleArtifact, hc]

/-- Witness for `single_flight_per_key`: on the empty cache state, the
first request for key `"k"` starts generation 0 and registers it. -/
theorem single_flight_per_key_witness :
    ((FlightSt.mk (fun _ => none) (fun _ => none) 0 0).cached "k" = none) ∧
    ((requestArtifact ⟨fun _ => none, fun _ => none, 0, 0⟩ "k" false).1 = .started 0 ∧
     (requestArtifact ⟨fun _ => none, fun _ => none, 0, 0⟩ "k" false).2.gens = 0 + 1 ∧
     (requestArtifact ⟨fun _ => none, fun _ => none, 0, 0⟩ "k" false).2.inflight "k" =
       some 0) :=
  ⟨rfl, (single_flight_per_key ⟨fun _ => none, fun _ => none, 0, 0⟩ "k").2.1 rfl rfl⟩

/-- C2, counterexample to the claim as stated: the first request for key
`"k"` starts generation 0 and registers it; while it is still pending (no
settlement in between), a second caller using forceRefresh — the
`get-cached-extracted-audio` branch at the top of the cited range, which
runs `cleanupCache()` and `audioExtractTasks.delete(cacheDir)` — does not
receive the pending promise: it starts generation 1, so two generations
for the same key are in flight at once. -/
theorem single_flight_forceRefresh_counterexample :
    (requestArtifact ⟨fun _ => none, fun _ => none, 0, 0⟩ "k" false).1 = .started 0 ∧
    (requestArtifact ⟨fun _ => none, fun _ => none, 0, 0⟩ "k" false).2.inflight "k" =
      some 0 ∧
    (requestArtifact (requestArtifact ⟨fun _ => none, fun _ => none, 0, 0⟩ "k" false).2
      "k" true).1 = .started 1 ∧
    (requestArtifact (requestArtifact ⟨fun _ => none, fun _ => none, 0, 0⟩ "k" false).2
      "k" true).2.gens = 2 := by
  refine ⟨?_, ?_, ?_, ?_⟩ <;> rfl

/-- After a full extraction every expected output is on disk non-empty. -/
theorem allTracksValid_fresh (n : ℕ) :
    allTracksValid n (fun i => if i < n then some 1 else none) = true := by
  simp only [allTracksValid, List.all_eq_true]
  intro i hi
  simp [trackSizeOk, List.mem_range.mp hi]

/-- C6 (amended): with the source's path, size and modification time
unchanged between two calls, resolving twice returns the same artifact
both times and never re-runs generation: the thumbnail kind returns from
the on-disk check with the disk state (including the generation count)
unchanged; the extracted-audio kind performs no second extraction but does
re-invoke the engine's probe before its on-disk check; the metadata kind
returns the identical value from the in-memory cache with no engine
invocation and no state change. -/
theorem cache_resolution_idempotent (d : DiskSt) (videoPath : String) (mtime size : ℕ)
    (ast : AudioCacheSt) (n : ℕ) (probeVal : ℕ) (mst : MetaCacheSt) :
    ((getCachedThumbnail d videoPath mtime size true).1 =
      some (computeCachedThumbPath videoPath mtime size) ∧
     (getCachedThumbnail (getCachedThumbnail d videoPath mtime size true).2
        videoPath mtime size true).1 =
      (getCachedThumbnail d videoPath mtime size true).1 ∧
     (getCachedThumbnail (getCachedThumbnail d videoPath mtime size true).2
        videoPath mtime size true).2 =
      (getCachedThumbnail d videoPath mtime size true).2) ∧
    ((getCachedExtractedAudio (getCachedExtractedAudio ast n).2 n).1 =
        (getCachedExtractedAudio ast n).1 ∧
     (getCachedExtractedAudio (getCachedExtractedAudio ast n).2 n).2.extractions =
        (getCachedExtractedAudio ast n).2.extractions ∧
     (getCachedExtractedAudio (getCachedExtractedAudio ast n).2 n).2.probes =
        (getCachedExtractedAudio ast n).2.probes + 1) ∧
    ((getCachedMetadata probeVal (getCachedMetadata probeVal mst).2).1 =
        (getCachedMetadata probeVal mst).1 ∧
     (getCachedMetadata probeVal (getCachedMetadata probeVal mst).2).2 =
        (getCachedMetadata probeVal mst).2) := by
  refine ⟨?_, ?_, ?_⟩
  · by_cases h : d.onDisk (computeCachedThumbPath videoPath mtime size) <;>
      simp [getCachedThumbnail, h]
  · by_cases hn : n = 0
    · subst hn
      simp [getCachedExtractedAudio]
    · by_cases hv : allTracksValid n ast.files
      · simp [getCachedExtractedAudio, hn, hv]
      · simp [getCachedExtractedAudio, hn, hv, allTracksValid_fresh]
  · cases hm : mst.memCache with
    | some m => simp [getCachedMetadata, hm]
    | none =>
      cases hd : mst.diskCache with
      | some m => simp [getCachedMetadata, hm, hd]
      | none => simp [getCachedMetadata, hm, hd]

/-- C6, counterexample to the claim as stated: for the extracted-audio
kind on a 2-stream source, the first call probes once (`probes = 1`) and
extracts; the second call over the unchanged source returns the same
artifact set with no second extraction, but its generation task invokes
`ffmpeg.ffprobe` again before the on-disk check (`probes = 2`) — an
external-engine invocation the claim rules out. -/
theorem audio_reprobe_counterexample :
    (getCachedExtractedAudio (⟨fun _ => none, 0, 0⟩ : AudioCacheSt) 2).2.probes = 1 ∧
    (getCachedExtractedAudio
      (getCachedExtractedAudio (⟨fun _ => none, 0, 0⟩ : AudioCacheSt) 2).2 2).1 =
      (getCachedExtractedAudio (⟨fun _ => none, 0, 0⟩ : AudioCacheSt) 2).1 ∧
    (getCachedExtractedAudio
      (getCachedExtractedAudio (⟨fun _ => none, 0, 0⟩ : AudioCacheSt) 2).2 2).2.extractions =
      (getCachedExtractedAudio (⟨fun _ => none, 0, 0⟩ : AudioCacheSt) 2).2.extractions ∧
    (getCachedExtractedAudio
      (getCachedExtractedAudio (⟨fun _ => none, 0, 0⟩ : AudioCacheSt) 2).2 2).2.probes = 2 := by
  refine ⟨?_, ?_, ?_, ?_⟩ <;> rfl

/-- C10: `unwatch-folder` removes the folder only from `folderWatchers`,
leaving `watchedBaseFolders` unchanged, so both the `local` protocol
allowlist and the `read-file-buffer` / `read-file-as-data-url` allowlist
are unaffected by it; in particular every path under a freshly watched and
then unwatched root remains granted by both checks. -/
theorem unwatch_keeps_allowlist (s : WatchGlobalSt) (root tmpDir q : String) :
    (unwatchFolder s root).watchedBaseFolders = s.watchedBaseFolders ∧
    (unwatchFolder s root).folderWatchers = s.folderWatchers.erase root ∧
    (∀ p, localProtocolAllowed (unwatchFolder s root) tmpDir p =
      localProtocolAllowed s tmpDir p) ∧
    (∀ p, readFileAllowed (unwatchFolder s root) tmpDir p =
      readFileAllowed s tmpDir p) ∧
    (root ∉ s.folderWatchers → jsStartsWith q root = true →
      localProtocolAllowed (unwatchFolder (watchFolder s root) root) tmpDir q = true ∧
      readFileAllowed (unwatchFolder (watchFolder s root) root) tmpDir q = true) := by
  refine ⟨rfl, rfl, fun p => rfl, fun p => rfl, ?_⟩
  intro hnw hq
  have hbase : root ∈ (unwatchFolder (watchFolder s root) root).watchedBaseFolders := by
    simp [unwatchFolder, watchFolder, hnw]
    by_cases hb : root ∈ s.watchedBaseFolders <;> simp [hb]
  constructor <;>
    · simp only [localProtocolAllowed, readFileAllowed, Bool.or_eq_true, List.any_eq_true]
      exact Or.inr ⟨root, hbase, hq⟩

/-- Witness for `unwatch_keeps_allowlist`: watching then unwatching
`"/videos"` from the empty tables still grants `"/videos/clip.mp4"` to
both checks. -/
theorem unwatch_keeps_allowlist_witness :
    ("/videos" ∉ (WatchGlobalSt.mk [] []).folderWatchers) ∧
    jsStartsWith "/videos/clip.mp4" "/videos" = true ∧
    (localProtocolAllowed (unwatchFolder (watchFolder ⟨[], []⟩ "/videos") "/videos")
        "/tmp" "/videos/clip.mp4" = true ∧
     readFileAllowed (unwatchFolder (watchFolder ⟨[], []⟩ "/videos") "/videos")
        "/tmp" "/videos/clip.mp4" = true) :=
  ⟨by decide, by decide,
   (unwatch_keeps_allowlist ⟨[], []⟩ "/videos" "/tmp" "/videos/clip.mp4").2.2.2.2
     (by decide) (by decide)⟩

/-- One queue step preserves the queue invariant. -/
theorem qStep_inv (N : ℕ) (s : QueueSt) (e : QEv) (h : QInv N s) : QInv N (qStep N s e) := by
  obtain ⟨h1, h2, h3⟩ := h
  cases e with
  | add =>
    by_cases hr : s.running.length < N
    · simp only [qStep, if_pos hr, QInv]
      refine ⟨by simpa using hr, h2, ?_⟩
      intro i hi
      exact lt_trans (h3 i hi) (Nat.lt_succ_self _)
    · simp only [qStep, if_neg hr, QInv]
      refine ⟨h1, ?_, ?_⟩
      · refine List.Chain'.append h2 (List.chain'_singleton _) ?_
        intro x hx y hy
        simp only [List.head?_cons, Option.mem_def, Option.some.injEq] at hy
        subst hy
        exact h3 x (List.mem_of_mem_getLast? hx)
      · intro i hi
        rcases List.mem_append.mp hi with hi | hi
        · exact lt_trans (h3 i hi) (Nat.lt_succ_self _)
        · simp only [List.mem_singleton] at hi
          subst hi
          exact Nat.lt_succ_self _
  | finish i ok =>
    by_cases hm : i ∈ s.running
    · have hpos : 0 < s.running.length := List.length_pos_of_mem hm
      have hlen : (s.running.erase i).length = s.running.length - 1 :=
        List.length_erase_of_mem hm
      simp only [qStep, if_pos hm]
      cases hw : s.waiting with
      | nil =>
        refine ⟨?_, ?_, ?_⟩
        · simpa [hlen] using le_trans (Nat.sub_le _ _) h1
        · simp [hw]
        · simp [hw]
      | cons w t =>
        have herase : (s.running.erase i).length < N := by omega
        simp only [if_pos herase]
        refine ⟨?_, ?_, ?_⟩
        · simp only [List.length_cons, hlen]
          omega
        · exact (hw ▸ h2).tail
        · intro j hj
          exact h3 j (hw ▸ List.mem_cons_of_mem w hj)
    · simpa [qStep, hm] using ⟨h1, h2, h3⟩

/-- Folding queue events preserves the queue invariant. -/
theorem qFold_inv (N : ℕ) (evs : List QEv) :
    ∀ s : QueueSt, QInv N s → QInv N (evs.foldl (qStep N) s) := by
  induction evs with
  | nil => exact fun s hs => hs
  | cons e es ih => exact fun s hs => ih (qStep N s e) (qStep_inv N s e hs)

/-- Every reachable queue state satisfies the queue invariant. -/
theorem qRun_inv (N : ℕ) (evs : List QEv) : QInv N (qRun N evs) :=
  qFold_inv N evs qInit ⟨by simp [qInit], by simp [qInit], by simp [qInit]⟩

/-- When a running task finishes while tasks wait, the task started next is
exactly the front (oldest) waiting task. -/
theorem qStep_finish_starts_head (N : ℕ) (s : QueueSt) (i w : ℕ) (ok : Bool) (t : List ℕ)
    (hm : i ∈ s.running) (hw : s.waiting = w :: t) (hN : s.running.length ≤ N) :
    (qStep N s (.finish i ok)).startedLog = s.startedLog ++ [w] ∧
    (qStep N s (.finish i ok)).waiting = t ∧
    (qStep N s (.finish i ok)).running = w :: s.running.erase i := by
  have hpos : 0 < s.running.length := List.length_pos_of_mem hm
  have hlen : (s.running.erase i).length = s.running.length - 1 :=
    List.length_erase_of_mem hm
  have herase : (s.running.erase i).length < N := by omega
  simp only [qStep, if_pos hm, hw, if_pos herase]
  refine ⟨?_, ?_, ?_⟩ <;> trivial

/-- A task failure affects the queue exactly as a success does, except that
the failing task's own outcome is recorded as failed. -/
theorem qStep_failure_isolated (N : ℕ) (s : QueueSt) (i : ℕ) :
    (qStep N s (.finish i false)).running = (qStep N s (.finish i true)).running ∧
    (qStep N s (.finish i false)).waiting = (qStep N s (.finish i true)).waiting ∧
    (qStep N s (.finish i false)).startedLog = (qStep N s (.finish i true)).startedLog ∧
    (∀ j, j ≠ i → (qStep N s (.finish i false)).outcomes j = s.outcomes j) ∧
    (i ∈ s.running → (qStep N s (.finish i false)).outcomes i = some false) := by
  by_cases hm : i ∈ s.running
  · simp only [qStep, if_pos hm]
    cases hw : s.waiting with
    | nil =>
      refine ⟨by trivial, by trivial, by trivial, ?_, ?_⟩
      · intro j hj
        simp [hj]
      · intro
        simp
    | cons w t =>
      by_cases herase : (s.running.erase i).length < N
      · simp only [if_pos herase]
        refine ⟨by trivial, by trivial, by trivial, ?_, ?_⟩
        · intro j hj
          simp [hj]
        · intro
          simp
      · simp only [if_neg herase]
        refine ⟨by trivial, by trivial, by trivial, ?_, ?_⟩
        · intro j hj
          simp [hj]
        · intro
          simp
  · simp only [qStep, if_neg hm]
    exact ⟨trivial, trivial, trivial, fun j hj => trivial, fun hc => absurd hc hm⟩

/-- The configured concurrency is coerced to `max(1, floor(value))`, always
at least 1. -/
theorem concurrency_coerced (c : ℚ) :
    (concurrencyOf c : ℤ) = max 1 ⌊c⌋ ∧ 1 ≤ concurrencyOf c := by
  have h1 : (1 : ℤ) ≤ max 1 ⌊c⌋ := le_max_left 1 ⌊c⌋
  unfold concurrencyOf
  constructor <;> omega

/-- C7: the queue's concurrency is coerced to `N = max(1, floor(value))`;
for every event trace at most `N` tasks run concurrently and the waiting
queue stays in submission order (so waiters start FIFO: the task started
when a running task finishes is the oldest waiting one); and a task's
failure settles only that task's outcome while the queue advances exactly
as on success. -/
theorem bounded_task_queue_guarantees (c : ℚ) (evs : List QEv) (s : QueueSt)
    (i w : ℕ) (ok : Bool) (t : List ℕ) :
    ((concurrencyOf c : ℤ) = max 1 ⌊c⌋ ∧ 1 ≤ concurrencyOf c) ∧
    QInv (concurrencyOf c) (qRun (concurrencyOf c) evs) ∧
    (i ∈ s.running → s.waiting = w :: t → s.running.length ≤ concurrencyOf c →
      (qStep (concurrencyOf c) s (.finish i ok)).startedLog = s.startedLog ++ [w] ∧
      (qStep (concurrencyOf c) s (.finish i ok)).waiting = t ∧
      (qStep (concurrencyOf c) s (.finish i ok)).running = w :: s.running.erase i) ∧
    ((qStep (concurrencyOf c) s (.finish i false)).running =
        (qStep (concurrencyOf c) s (.finish i true)).running ∧
     (qStep (concurrencyOf c) s (.finish i false)).waiting =
        (qStep (concurrencyOf c) s (.finish i true)).waiting ∧
     (qStep (concurrencyOf c) s (.finish i false)).startedLog =
        (qStep (concurrencyOf c) s (.finish i true)).startedLog ∧
     (∀ j, j ≠ i → (qStep (concurrencyOf c) s (.finish i false)).outcomes j = s.outcomes j) ∧
     (i ∈ s.running → (qStep (concurrencyOf c) s (.finish i false)).outcomes i = some false)) :=
  ⟨concurrency_coerced c, qRun_inv _ evs,
   fun hm hw hN => qStep_finish_starts_head _ s i w ok t hm hw hN,
   qStep_failure_isolated _ s i⟩

/-- Characterisation of the extraction aggregate state after any sequence
of terminal track events: `completed` counts the ended tracks, `hasError`
records whether any track errored, and the request settles (rejecting with
cleanup, or resolving when all tracks ended and every output is valid)
exactly as the event multiset dictates. -/
theorem extractRun_char (n : ℕ) (sizes : ℕ → Option ℕ) (evs : List TrackEv)
    (hn0 : 0 < n) (hlen : evs.length ≤ n) :
    (extractRun n sizes evs).completed = evs.count .fin ∧
    ((extractRun n sizes evs).hasError = true ↔ .err ∈ evs) ∧
    (if .err ∈ evs then
      (extractRun n sizes evs).settled = some false ∧ (extractRun n sizes evs).cleaned = true
     else if evs.count .fin = n then
      (extractRun n sizes evs).settled =
        (if allTracksValid n sizes then some true else some false) ∧
      (extractRun n sizes evs).cleaned = !allTracksValid n sizes
     else
      (extractRun n sizes evs).settled = none ∧ (extractRun n sizes evs).cleaned = false) := by
  induction evs using List.reverseRecOn with
  | nil =>
    refine ⟨rfl, by simp [extractRun], ?_⟩
    have : ¬ (List.count TrackEv.fin [] = n) := by
      simp
      omega
    simp only [List.not_mem_nil, if_false, this, if_false]
    exact ⟨rfl, rfl⟩
  | append_singleton evs e ih =>
    have hlen1 : evs.length + 1 ≤ n := by simpa using hlen
    have hcount : evs.count TrackEv.fin ≤ evs.length := List.count_le_length _ _
    obtain ⟨ih1, ih2, ih3⟩ := ih (by omega)
    have hrun : extractRun n sizes (evs ++ [e]) =
        extractStep n sizes (extractRun n sizes evs) e := by
      simp [extractRun, List.foldl_append]
    rw [hrun]
    generalize hs0 : extractRun n sizes evs = s0 at ih1 ih2 ih3
    obtain ⟨c, he, st, cl⟩ := s0
    simp only at ih1 ih2 ih3
    subst ih1
    cases e with
    | err =>
      by_cases hmem : TrackEv.err ∈ evs
      · have hhe : he = true := ih2.mpr hmem
        rw [if_pos hmem] at ih3
        subst hhe
        refine ⟨?_, ?_, ?_⟩
        · simp [extractStep, List.count_append]
        · simp [extractStep, hmem]
        · simpa [extractStep, hmem] using ih3
      · have hhe : he = false := by
          cases h : he
          · rfl
          · exact absurd (ih2.mp h) hmem
        have hcn : evs.count TrackEv.fin ≠ n := by omega
        rw [if_neg hmem, if_neg hcn] at ih3
        obtain ⟨hst, hcl⟩ := ih3
        subst hhe hst hcl
        refine ⟨?_, ?_, ?_⟩
        · simp [extractStep, List.count_append]
        · simp [extractStep]
        · simp [extractStep]
    | fin =>
      by_cases hmem : TrackEv.err ∈ evs
      · have hhe : he = true := ih2.mpr hmem
        rw [if_pos hmem] at ih3
        obtain ⟨hst, hcl⟩ := ih3
        subst hhe hst hcl
        refine ⟨?_, ?_, ?_⟩
        · simp [extractStep, List.count_append]
        · simp [extractStep, hmem]
        · simp [extractStep, hmem]
      · have hhe : he = false := by
          cases h : he
          · rfl
          · exact absurd (ih2.mp h) hmem
        have hcn : evs.count TrackEv.fin ≠ n := by omega
        rw [if_neg hmem, if_neg hcn] at ih3
        obtain ⟨hst, hcl⟩ := ih3
        subst hhe hst hcl
        have hmemapp : TrackEv.err ∉ evs ++ [TrackEv.fin] := by simp [hmem]
        have hca : (evs ++ [TrackEv.fin]).count TrackEv.fin = evs.count TrackEv.fin + 1 := by
          simp [List.count_append]
        by_cases hcc : List.count TrackEv.fin evs + 1 = n
        · by_cases hv : allTracksValid n sizes
          · refine ⟨?_, ?_, ?_⟩
            · simp [extractStep, hcc, hv, List.count_append]
            · simp [extractStep, hcc, hv, hmem]
            · rw [if_neg hmemapp, if_pos (show (evs ++ [TrackEv.fin]).count TrackEv.fin = n by rw [hca]; omega)]
              simp [extractStep, hcc, hv]
          · refine ⟨?_, ?_, ?_⟩
            · simp [extractStep, hcc, hv, List.count_append]
            · simp [extractStep, hcc, hv, hmem]
            · rw [if_neg hmemapp, if_pos (show (evs ++ [TrackEv.fin]).count TrackEv.fin = n by rw [hca]; omega)]
              simp [extractStep, hcc, hv]
        · refine ⟨?_, ?_, ?_⟩
          · simp [extractStep, hcc, List.count_append]
          · simp [extractStep, hcc, hmem]
          · rw [if_neg hmemapp, if_neg (show ¬ (evs ++ [TrackEv.fin]).count TrackEv.fin = n by rw [hca]; omega)]
            simp [extractStep, hcc]


/-- C5: for an extraction over `n > 0` audio streams where each stream
produces exactly one terminal event (in any arrival order): the request
resolves if and only if every stream ended without error and every
expected output file exists with non-zero size; it rejects if and only if
some stream failed (including a 30-second-timeout force-kill, surfaced as
an error event) or some output file is missing or empty; every rejection
cleans the source's cache directory; and the per-track timeout is fixed at
30000 ms. -/
theorem extraction_set_validity (n : ℕ) (sizes : ℕ → Option ℕ) (evs : List TrackEv)
    (hn0 : 0 < n) (hlen : evs.length = n) :
    perTrackTimeoutMs = 30000 ∧
    ((extractRun n sizes evs).settled = some true ↔
      (TrackEv.err ∉ evs ∧ allTracksValid n sizes = true)) ∧
    ((extractRun n sizes evs).settled = some false ↔
      (TrackEv.err ∈ evs ∨ allTracksValid n sizes = false)) ∧
    ((extractRun n sizes evs).settled = some false →
      (extractRun n sizes evs).cleaned = true) := by
  obtain ⟨h1, h2, h3⟩ := extractRun_char n sizes evs hn0 (le_of_eq hlen)
  by_cases hmem : TrackEv.err ∈ evs
  · rw [if_pos hmem] at h3
    obtain ⟨hst, hcl⟩ := h3
    refine ⟨rfl, ?_, ?_, fun _ => hcl⟩
    · simp [hst, hmem]
    · simp [hst, hmem]
  · have hcnt : evs.count TrackEv.fin = n := by
      rw [← hlen]
      refine List.count_eq_length.mpr ?_
      intro b hb
      cases b with
      | fin => rfl
      | err => exact absurd hb hmem
    rw [if_neg hmem, if_pos hcnt] at h3
    obtain ⟨hst, hcl⟩ := h3
    by_cases hv : allTracksValid n sizes
    · rw [if_pos hv] at hst
      refine ⟨rfl, ?_, ?_, ?_⟩
      · simp [hst, hmem, hv]
      · simp [hst, hmem, hv]
      · simp [hst]
    · rw [if_neg hv] at hst
      refine ⟨rfl, ?_, ?_, ?_⟩
      · simp [hst, hmem, hv]
      · simp [hst, hmem, hv]
      · intro
        rw [hcl, Bool.eq_false_iff.mpr hv]
        rfl

/-- Witness for `extraction_set_validity`: two tracks, both ending with
5-byte outputs, resolve the set. -/
theorem extraction_set_validity_witness :
    0 < 2 ∧ ([TrackEv.fin, TrackEv.fin].length = 2) ∧
    ((extractRun 2 (fun _ => some 5) [TrackEv.fin, TrackEv.fin]).settled = some true ↔
      (TrackEv.err ∉ [TrackEv.fin, TrackEv.fin] ∧
        allTracksValid 2 (fun _ => some 5) = true)) :=
  ⟨by decide, by decide,
   (extraction_set_validity 2 (fun _ => some 5) [TrackEv.fin, TrackEv.fin]
     (by decide) (by decide)).2.1⟩

/-- Witness for `bounded_task_queue_guarantees`: with concurrency 1, task 7
running and tasks 3 and 4 waiting, finishing task 7 starts task 3 (the
oldest waiter). -/
theorem bounded_task_queue_guarantees_witness :
    (7 ∈ (QueueSt.mk [7] [3, 4] [7] (fun _ => none) 8).running ∧
     (QueueSt.mk [7] [3, 4] [7] (fun _ => none) 8).waiting = 3 :: [4] ∧
     (QueueSt.mk [7] [3, 4] [7] (fun _ => none) 8).running.length ≤ concurrencyOf 1) ∧
    ((qStep (concurrencyOf 1) ⟨[7], [3, 4], [7], fun _ => none, 8⟩
        (.finish 7 true)).startedLog = [7] ++ [3] ∧
     (qStep (concurrencyOf 1) ⟨[7], [3, 4], [7], fun _ => none, 8⟩
        (.finish 7 true)).waiting = [4] ∧
     (qStep (concurrencyOf 1) ⟨[7], [3, 4], [7], fun _ => none, 8⟩
        (.finish 7 true)).running = 3 :: ([7].erase 7)) := by
  have hc : concurrencyOf 1 = 1 := by norm_num [concurrencyOf]
  refine ⟨⟨by simp, rfl, by simp [hc]⟩, ?_⟩
  exact (bounded_task_queue_guarantees 1 [] ⟨[7], [3, 4], [7], fun _ => none, 8⟩
    7 3 true [4]).2.2.1 (by simp) rfl (by simp [hc])

/-- A timer set at a non-final time of a burst is cleared by the burst's
last notification, and the last timer survives: a burst whose notifications
all lie within 500 ms of the final one yields exactly one firing. -/
theorem survivors_burst (l : List ℕ) (m : ℕ)
    (hs : (l ++ [m]).Pairwise (· < ·)) (hb : ∀ u ∈ l, m < u + 500) :
    survivors (l ++ [m]) = [m] := by
  unfold survivors
  rw [List.filter_append]
  have hlt : ∀ t ∈ l, t < m := by
    intro t ht
    exact (List.pairwise_append.mp hs).2.2 t ht m (List.mem_singleton_self m)
  have h1 : l.filter (fun t => (l ++ [m]).all (fun u => u ≤ t || t + 500 ≤ u)) = [] := by
    refine List.filter_eq_nil_iff.mpr ?_
    intro t ht
    simp only [List.all_eq_true, Bool.or_eq_true, decide_eq_true_eq, not_forall]
    refine ⟨m, by simp, ?_⟩
    push_neg
    have := hlt t ht
    have := hb t ht
    constructor <;> omega
  have hall : ((l ++ [m]).all (fun u => u ≤ m || m + 500 ≤ u)) = true := by
    rw [List.all_eq_true]
    intro u hu
    simp only [Bool.or_eq_true, decide_eq_true_eq]
    rcases List.mem_append.mp hu with hu | hu
    · exact Or.inl (le_of_lt (hlt u hu))
    · simp at hu
      subst hu
      exact Or.inl le_rfl
  have h2 : [m].filter (fun t => (l ++ [m]).all (fun u => u ≤ t || t + 500 ≤ u)) = [m] := by
    simp only [List.filter_singleton, hall, cond_true]
  rw [h1, h2]
  rfl

/-- C8: a burst of notifications within 500 ms (times `l ++ [m]`, strictly
increasing, all within 500 ms of the last) collapses to exactly one timer
firing; the firing emits `added` exactly when the path exists with positive
size and is not yet known, and adds the path to the known set at that
moment; so a first burst over a present non-empty file emits exactly one
`added`, and an identical second burst emits nothing. -/
theorem debounce_collapse (l lB : List ℕ) (m mB : ℕ) (size : ℕ)
    (hs : (l ++ [m]).Pairwise (· < ·)) (hb : ∀ u ∈ l, m < u + 500)
    (hsB : (lB ++ [mB]).Pairwise (· < ·)) (hbB : ∀ u ∈ lB, mB < u + 500)
    (hsz : 0 < size) :
    (∀ fsEx sz (st : WatchPathSt),
      ((fireStep fsEx sz st).emitted = st.emitted ++ [FileEv.added] ↔
        (fsEx = true ∧ 0 < sz ∧ st.known = false))) ∧
    (∀ sz (st : WatchPathSt), st.known = false → 0 < sz →
      (fireStep true sz st).known = true) ∧
    survivors (l ++ [m]) = [m] ∧
    processBurst (l ++ [m]) true size ⟨false, []⟩ = ⟨true, [FileEv.added]⟩ ∧
    processBurst (lB ++ [mB]) true size ⟨true, [FileEv.added]⟩ =
      ⟨true, [FileEv.added]⟩ := by
  have hfire : ∀ fsEx sz (st : WatchPathSt),
      ((fireStep fsEx sz st).emitted = st.emitted ++ [FileEv.added] ↔
        (fsEx = true ∧ 0 < sz ∧ st.known = false)) := by
    intro fsEx sz st
    cases fsEx <;> cases hkn : st.known <;> by_cases hz : 0 < sz <;>
      simp [fireStep, hkn, hz]
  refine ⟨hfire, ?_, survivors_burst l m hs hb, ?_, ?_⟩
  · intro sz st hkn hz
    simp [fireStep, hkn, hz]
  · rw [processBurst, survivors_burst l m hs hb]
    simp [fireStep, hsz]
  · rw [processBurst, survivors_burst lB mB hsB hbB]
    simp [fireStep]

/-- Witness for `debounce_collapse`: a file created at t=0 and appended to
five times (t=100..400), all within 500 ms, emits exactly one `added`; a
later identical burst (t=1000, 1100) emits nothing. -/
theorem debounce_collapse_witness :
    (([0, 100, 150, 200, 300] ++ [400] : List ℕ).Pairwise (· < ·) ∧
     (∀ u ∈ ([0, 100, 150, 200, 300] : List ℕ), 400 < u + 500) ∧ (0 : ℕ) < 7) ∧
    processBurst ([0, 100, 150, 200, 300] ++ [400]) true 7 ⟨false, []⟩ =
      ⟨true, [FileEv.added]⟩ ∧
    processBurst ([1000] ++ [1100]) true 7 ⟨true, [FileEv.added]⟩ =
      ⟨true, [FileEv.added]⟩ :=
  ⟨⟨by decide, by decide, by decide⟩,
   (debounce_collapse [0, 100, 150, 200, 300] [1000] 400 1100 7
     (by decide) (by decide) (by decide) (by decide) (by decide)).2.2.2.1,
   (debounce_collapse [0, 100, 150, 200, 300] [1000] 400 1100 7
     (by decide) (by decide) (by decide) (by decide) (by decide)).2.2.2.2⟩

/-- With the watcher closed and no pending timer, every further event for
the root is a no-op. -/
theorem rootStep_noop (fsEx : Bool) (size : ℕ) (s : RootSt) (e : WatchEv)
    (hw : s.watching = false) (ht : s.timer = none) : rootStep fsEx size s e = s := by
  obtain ⟨w, tm, kn, em⟩ := s
  simp only at hw ht
  subst hw ht
  cases e with
  | notify t => simp [rootStep]
  | unwatch => rfl
  | fire t => simp [rootStep]

/-- C9 (amended): `unwatch-folder` only closes the watcher — it emits no
synthetic events, and after it no raw notification for the root has any
effect; but it does not discard the pending debounce timer (see
`unwatch_timer_counterexample`), and only once no timer is pending is the
root permanently silent. -/
theorem unwatch_quiescence (fsEx : Bool) (size : ℕ) (s : RootSt) (evs : List WatchEv) :
    (rootStep fsEx size s .unwatch = { s with watching := false }) ∧
    ((∀ e ∈ evs, ∃ t, e = WatchEv.notify t) → s.watching = false →
      rootRun fsEx size s evs = s) ∧
    (s.watching = false → s.timer = none → rootRun fsEx size s evs = s) := by
  refine ⟨rfl, ?_, ?_⟩
  · intro hall hw
    induction evs with
    | nil => rfl
    | cons e es ih =>
      obtain ⟨t, rfl⟩ := hall e (List.mem_cons_self e es)
      have hstep : rootStep fsEx size s (WatchEv.notify t) = s := by
        simp [rootStep, hw]
      rw [rootRun, List.foldl_cons, hstep]
      exact ih (fun e he => hall e (List.mem_cons_of_mem _ he))
  · intro hw ht
    induction evs with
    | nil => rfl
    | cons e es ih =>
      rw [rootRun, List.foldl_cons, rootStep_noop fsEx size s e hw ht]
      exact ih

/-- Witness for `unwatch_quiescence`: a stopped root with no pending timer
ignores a later notification. -/
theorem unwatch_quiescence_witness :
    ((RootSt.mk false none true []).watching = false ∧
     (RootSt.mk false none true []).timer = none) ∧
    rootRun true 5 ⟨false, none, true, []⟩ [WatchEv.notify 3] =
      ⟨false, none, true, []⟩ :=
  ⟨⟨rfl, rfl⟩,
   (unwatch_quiescence true 5 ⟨false, none, true, []⟩ [WatchEv.notify 3]).2.2 rfl rfl⟩

/-- C9, counterexample to the claim as stated: a notification at t=0
schedules a timer for t=500; `unwatch-folder` runs before the deadline and
emits nothing, but the already-scheduled timer is not discarded — it fires
at t=500 (the file exists with size 1 and is unknown) and emits an `added`
event attributable to the unwatched root. -/
theorem unwatch_timer_counterexample :
    (rootRun true 1 ⟨true, none, false, []⟩ [.notify 0, .unwatch]).emitted = [] ∧
    (rootRun true 1 ⟨true, none, false, []⟩ [.notify 0, .unwatch]).watching = false ∧
    (rootRun true 1 ⟨true, none, false, []⟩ [.notify 0, .unwatch]).timer = some 500 ∧
    (rootRun true 1 ⟨true, none, false, []⟩
      [.notify 0, .unwatch, .fire 500]).emitted = [FileEv.added] := by
  refine ⟨?_, ?_, ?_, ?_⟩ <;> rfl

end Clipfolio
